import Mathlib

/-!
Verification of the ramus workflow engine core against its specification.

Shallow embedding of the TypeScript sources:
* event classification (packages/workflow/src/events.ts)
* counting semaphores and the multi-semaphore acquirer (src/semaphore.ts)
* step tracing (packages/workflow/src/tracing.ts)
* DAG compilation (src/dag/compile.ts), node runners and the DAG runner
  (src/dag/node_runner.ts, src/dag/runner.ts, packages/workflow/src/dag/node_runner.ts)
* the state machine runner (packages/workflow/src/state_machine/runner.ts)

Each definition mirrors the control flow of the named source function.
JS numbers that only ever hold integers are modelled as Int or Nat; JS maps
and objects are modelled as association lists in key-insertion order.
-/

namespace Ramus

/-! ### Event classification (packages/workflow/src/events.ts, frameworkEvents / isFrameworkEvent) -/

/-- The literal contents of the `frameworkEvents` set in
packages/workflow/src/events.ts lines 100 to 115. -/
def frameworkEvents : List String :=
  [ "dag:start"
  , "dag:finish"
  , "dag:error"
  , "dag:node_start"
  , "dag:node_finish"
  , "dag:node_error"
  , "dag:node_state"
  , "state_machine:start"
  , "state_machine:status"
  , "state_machine:transition"
  , "state_machine:node_start"
  , "state_machine:node_finish"
  , "step:start"
  , "step:end" ]

/-- Mirrors `isFrameworkEvent(event)`, which tests `frameworkEvents.has(event.type)`.
Only the type tag of the event is consulted. -/
def isFrameworkEvent (eventType : String) : Bool :=
  frameworkEvents.contains eventType

/-! ### DAG node runner cancellation (packages/workflow/src/dag/node_runner.ts) -/

namespace Workflow

/-- Node runner states of the packages/workflow variant (dag/types.ts). -/
inductive DagNodeState where
  | waiting
  | ready
  | pendingSemaphore
  | running
  | cancelled
  | error
  | finished
deriving DecidableEq, Repr, Fintype

/-- Mirrors `DagNodeRunner.stateReadyToRun()`: true for `waiting` and `ready` only. -/
def stateReadyToRun (s : DagNodeState) : Bool :=
  s = .waiting || s = .ready

/-- Mirrors `DagNodeRunner.cancel()`: set the state to `cancelled` when
`stateReadyToRun()` holds or the state is `running`, otherwise leave it alone. -/
def cancelNode (s : DagNodeState) : DagNodeState :=
  if stateReadyToRun s || s = .running then .cancelled else s

/-- Mirrors `DagRunner.cancel()`, which calls `runner.cancel()` on every node runner. -/
def dagCancel (states : List DagNodeState) : List DagNodeState :=
  states.map cancelNode

end Workflow

/-! ### LocalSemaphore (src/semaphore.ts) -/

/-- The per-key record stored in `LocalSemaphore.counts` (interface SemaphoreClass).
Pending waiters are identified by numeric tokens standing in for the stored
`resolve` callbacks, in queue order. -/
structure SemaphoreClass where
  limit : Nat
  current : Nat
  pending : List Nat
deriving DecidableEq, Repr

/-- The `counts` map of a LocalSemaphore, in key-insertion order. -/
structure LocalSemaphore where
  counts : List (String × SemaphoreClass)
deriving DecidableEq, Repr

/-- Mirrors the LocalSemaphore constructor: every configured key starts with
`current = 0` and no pending waiters. -/
def LocalSemaphore.ofLimits (limits : List (String × Nat)) : LocalSemaphore :=
  ⟨limits.map fun kv => (kv.1, ⟨kv.2, 0, []⟩)⟩

/-- Lookup in the `counts` map. -/
def LocalSemaphore.get (s : LocalSemaphore) (key : String) : Option SemaphoreClass :=
  (s.counts.find? fun kv => kv.1 = key).map (·.2)

/-- Replace the entry for an existing key, keeping map order. -/
def LocalSemaphore.set (s : LocalSemaphore) (key : String) (v : SemaphoreClass) :
    LocalSemaphore :=
  ⟨s.counts.map fun kv => if kv.1 = key then (kv.1, v) else kv⟩

/-- Outcome of `acquire(key)` as observed by the caller. -/
inductive AcquireOutcome where
  | noLimit
  | acquired
  | queued
deriving DecidableEq, Repr

/-- Mirrors `LocalSemaphore.acquire(key)`. `wid` is the token standing for the
resolve callback pushed onto `pending` when the key is at its limit. -/
def LocalSemaphore.acquire (s : LocalSemaphore) (key : String) (wid : Nat) :
    LocalSemaphore × AcquireOutcome :=
  match s.get key with
  | none => (s, .noLimit)
  | some v =>
    if v.current ≥ v.limit then
      (s.set key { v with pending := v.pending ++ [wid] }, .queued)
    else
      (s.set key { v with current := v.current + 1 }, .acquired)

/-- Mirrors `LocalSemaphore.release(key)`. Returns the updated semaphore and the
waiter token that was handed the freed slot, if any. The slot is handed over
only when `pending.length > 0 && current === limit`; otherwise the count is
decremented, clamped at zero (Nat subtraction models `Math.max(current - 1, 0)`). -/
def LocalSemaphore.release (s : LocalSemaphore) (key : String) :
    LocalSemaphore × Option Nat :=
  match s.get key with
  | none => (s, none)
  | some v =>
    if v.pending.length > 0 ∧ v.current = v.limit then
      match v.pending with
      | [] => (s, none)
      | w :: rest => (s.set key { v with pending := rest }, some w)
    else
      (s.set key { v with current := v.current - 1 }, none)

/-- The drain loop of `setLimit`: while pending waiters exist and the count is
under the new limit, pop a waiter and increment the count. Returns the new
count, the remaining queue and the waiters that were resolved, in order. -/
def drainPendingGo (limit : Nat) : Nat → List Nat → Nat × List Nat × List Nat
  | current, [] => (current, [], [])
  | current, w :: rest =>
    if current < limit then
      let (c, p, ws) := drainPendingGo limit (current + 1) rest
      (c, p, w :: ws)
    else
      (current, w :: rest, [])

/-- The effect of the `setLimit` drain loop on the whole per-key record. -/
def drainPending (v : SemaphoreClass) : SemaphoreClass × List Nat :=
  let (c, p, ws) := drainPendingGo v.limit v.current v.pending
  ({ v with current := c, pending := p }, ws)

/-- Mirrors `LocalSemaphore.setLimit(key, limit)`. -/
def LocalSemaphore.setLimit (s : LocalSemaphore) (key : String) (limit : Nat) :
    LocalSemaphore × List Nat :=
  match s.get key with
  | none => (⟨s.counts ++ [(key, ⟨limit, 0, []⟩)]⟩, [])
  | some v =>
    let (v', ws) := drainPending { v with limit := limit }
    (s.set key v', ws)

/-- The state reached by configuring key k at limit 2, acquiring three times
(the third acquisition queues waiter 3), then lowering the limit to 1. -/
def lowerLimitState : LocalSemaphore :=
  let s0 := LocalSemaphore.ofLimits [("k", 2)]
  let s1 := (s0.acquire "k" 1).1
  let s2 := (s1.acquire "k" 2).1
  let s3 := (s2.acquire "k" 3).1
  (s3.setLimit "k" 1).1

/-! ### Step tracing (packages/workflow/src/tracing.ts, runNewStepInternal) -/

/-- The fields of an emitted step event that the tracing claims are about.
Timestamps are modelled as natural numbers; `new Date()` is monotone, so the
end time is the start time plus a nonnegative duration. -/
structure TraceEvent where
  type : String
  source : String
  sourceNode : String
  runId : String
  step : Option String
  start_time : Nat
  end_time : Option Nat
deriving DecidableEq, Repr

/-- The ambient event context of the tracing module (interface EventContext);
only the fields used by `runNewStepInternal` are modelled. -/
structure EventContext where
  runId : String
  sourceName : String
  parentStep : Option String
  currentStep : Option String
deriving DecidableEq, Repr

/-- The step options consumed by `runNewStepInternal` (interface StepOptions);
span-only fields are omitted. -/
structure StepOptions where
  name : String
  parentStep : Option String := none
  skipLogging : Bool := false
  newSourceName : Option String := none
deriving Repr

/-- Mirrors `runNewStepInternal(options, span, fn)`.

The fresh UUIDv7 produced by `uuidv7()` for `currentStep` is supplied as the
`freshStep` argument. The body is modelled as a value `bodyResult` that either
returns normally (`Except.ok`) or throws (`Except.error`); `t0` is the wall
clock at `startTime` and `dur` the nonnegative time the body takes. Returns
the list of events logged by the wrapper (user events logged by the body
itself are not framework step events and are outside this model) together
with the propagated result. -/
def runNewStepInternal (options : StepOptions) (oldContext : EventContext)
    (freshStep : String) (bodyResult : Except String Int) (t0 dur : Nat) :
    List TraceEvent × Except String Int :=
  let newContext : EventContext :=
    { runId := oldContext.runId
      sourceName := options.newSourceName.getD oldContext.sourceName
      parentStep := match options.parentStep with
        | some p => some p
        | none => oldContext.currentStep
      currentStep := some freshStep }
  let startEvents :=
    if options.skipLogging then ([] : List TraceEvent)
    else
      [{ type := "step:start"
         source := newContext.sourceName
         sourceNode := options.name
         runId := newContext.runId
         step := newContext.currentStep
         start_time := t0
         end_time := none }]
  match bodyResult with
  | .ok retVal =>
    let endEvents :=
      if options.skipLogging then ([] : List TraceEvent)
      else
        [{ type := "step:end"
           source := newContext.sourceName
           sourceNode := options.name
           runId := newContext.runId
           step := newContext.currentStep
           start_time := t0
           end_time := some (t0 + dur) }]
    (startEvents ++ endEvents, .ok retVal)
  | .error e =>
    let errorEvents :=
      if options.skipLogging then ([] : List TraceEvent)
      else
        [{ type := "step:error"
           source := newContext.sourceName
           sourceNode := options.name
           runId := newContext.runId
           step := newContext.currentStep
           start_time := t0
           end_time := some (t0 + dur) }]
    (startEvents ++ errorEvents, .error e)

/-! ### acquireSemaphores (src/semaphore.ts lines 89 to 119)

The multi-semaphore acquirer starts one concurrent task per supplied
semaphore; task i awaits `semaphores[i].acquire(key)` and then atomically
either releases immediately (when the shared error flag is already set) or
records `acquired[i] = true`. The catch handler of `Promise.all` sets the
error flag and releases every semaphore whose flag is set. On the JS event
loop the continuations run atomically in some interleaving, so a run of the
function is a sequence of atomic events: task completions (successful or
rejected acquisitions) and the single catch-handler run, which is queued
after the first rejection. A rejected `acquire` holds no slot, and the count
of semaphore i moves by plus one on a successful acquire and minus one on a
release. -/

/-- One atomic event in a run of `acquireSemaphores`: completion of task `i`
(with `ok = false` when its acquisition rejected) or the catch handler. -/
inductive AcqEvent where
  | complete (i : Nat) (ok : Bool)
  | runCatch
deriving DecidableEq, Repr

/-- The shared state of one `acquireSemaphores` call: the per-semaphore counts
for the key, the `acquired` flag array, and the `error` flag. -/
structure AcqState where
  counts : List Int
  acquired : List Bool
  error : Bool
deriving DecidableEq, Repr

/-- Update position i of a list, leaving out-of-range indices unchanged. -/
def updAt (l : List Int) (i : Nat) (f : Int → Int) : List Int :=
  match l, i with
  | [], _ => []
  | x :: xs, 0 => f x :: xs
  | x :: xs, i + 1 => x :: updAt xs i f

/-- Set flag i to true, leaving out-of-range indices unchanged
(mirrors the sparse JS array write `acquired[i] = true`). -/
def setTrue : List Bool → Nat → List Bool
  | [], _ => []
  | _ :: xs, 0 => true :: xs
  | x :: xs, i + 1 => x :: setTrue xs i

/-- Read flag i, with false for out-of-range indices (sparse JS array read). -/
def getFlag : List Bool → Nat → Bool
  | [], _ => false
  | x :: _, 0 => x
  | _ :: xs, i + 1 => getFlag xs i

/-- One atomic event of `acquireSemaphores`:
task i completing a successful acquire increments count i and then either
releases at once (error flag set) or records the acquisition; a rejected
acquire holds no slot; the catch handler sets the error flag and releases
every recorded acquisition. -/
def acqStep (s : AcqState) : AcqEvent → AcqState
  | .complete i true =>
    let s1 : AcqState := { s with counts := updAt s.counts i (· + 1) }
    if s1.error then
      { s1 with counts := updAt s1.counts i (· - 1) }
    else
      { s1 with acquired := setTrue s1.acquired i }
  | .complete _ false => s
  | .runCatch =>
    { s with
      error := true
      counts := List.zipWith (fun c a => if a then c - 1 else c) s.counts s.acquired }

/-- Run one call of `acquireSemaphores` along a given interleaving, starting
from the pre-call counts, all-false acquired flags, and a clear error flag. -/
def runAcq (init : List Int) (sched : List AcqEvent) : AcqState :=
  sched.foldl acqStep ⟨init, List.replicate init.length false, false⟩

/-- The task index of a completion event. -/
def completeIndex : AcqEvent → Option Nat
  | .complete i _ => some i
  | .runCatch => none

/-- Mirrors how the failing run arises: the first failed acquisition rejects
`Promise.all`, and the catch handler runs at some later point of the
interleaving. -/
def failureBeforeCatch : List AcqEvent → Bool
  | [] => false
  | .runCatch :: _ => false
  | .complete _ false :: rest => rest.contains .runCatch
  | .complete _ true :: rest => failureBeforeCatch rest

/-- Per-position effect of a recorded acquisition on the count. -/
def acqAdd (c : Int) (a : Bool) : Int := if a then c + 1 else c

/-- Number of catch-handler events in a schedule (the real catch handler runs
exactly once per call). -/
def catchCount : List AcqEvent → Nat
  | [] => 0
  | .runCatch :: rest => catchCount rest + 1
  | .complete _ _ :: rest => catchCount rest

/-! ### State machine runner (packages/workflow/src/state_machine/runner.ts)

The runner is embedded over an abstract value type V standing for the JS
values flowing through contexts, inputs, outputs and event data. Node run
bodies are irrelevant to the transition claims (only their presence matters,
for `canStep`), so a node records whether it has a body. Guard conditions are
embedded as functions returning the JS values the code distinguishes:
`true`, `false`, `undefined`, or an object with an optional `transition`
field. The empty string stands for an absent / empty event type, exactly as
the code| uses `eventType ?? ''` and treats `''` and `undefined` alike in
boolean positions. -/

namespace SM

/-- StateMachineStatus from state_machine/types.ts. -/
inductive SMStatus where
  | initial
  | ready
  | pendingSemaphore
  | running
  | waitingForEvent
  | final
  | error
  | cancelled
deriving DecidableEq, Repr

/-- The argument handed to a transition guard (TransitionGuardInput). -/
structure GuardInput (V : Type) where
  context : V
  input : Option V
  output : Option V
  rootInput : V
  event : Option (String × V)

/-- The JS values a guard may return: a boolean, undefined, or an object whose
`transition` field is absent, true or false. -/
inductive GuardResult where
  | bool (b : Bool)
  | undef
  | obj (transition : Option Bool)

/-- One entry of a transition list: target state plus optional guard. -/
structure SMTransition (V : Type) where
  state : String
  condition : Option (GuardInput V → Option (String × V) → GuardResult) := none

/-- The value stored under one event key of a keyed `transition` mapping:
a bare target name, a single transition object, or a list of them. -/
inductive TransitionValue (V : Type) where
  | target (s : String)
  | single (t : SMTransition V)
  | many (ts : List (SMTransition V))

/-- The polymorphic `transition` field of a state: a bare next-state string or
a mapping from event type (empty string = always) to transition values. -/
inductive TransitionSpec (V : Type) where
  | always (s : String)
  | keyed (m : List (String × TransitionValue V))

/-- One state of the machine (StateMachineNode); run bodies are recorded only
by presence since the claims below concern transition resolution. -/
structure SMNode (V : Type) where
  hasRun : Bool := false
  final : Bool := false
  transition : Option (TransitionSpec V) := none

/-- Events observable from the runner: `state_machine:status` /
`state_machine:transition` callbacks and the `cancelled` emitter event. -/
inductive SMEvent (V : Type) where
  | statusEvent (status : SMStatus) (state : String)
  | transitionEvent (fromState toState : String) (input output : Option V)
      (event : Option (String × V)) (final : Bool)
  | cancelledEmit

/-- The `currentState` record of the runner. -/
structure CurrentState (V : Type) where
  state : String
  previousState : Option String := none
  input : Option V := none
  event : Option (String × V) := none
  output : Option V := none

/-- The argument of `send` (StateMachineSendEventOptions); an omitted `queue`
is used only in boolean positions, so it is modelled as false. -/
structure SendOptions (V : Type) where
  type : String
  data : V
  queue : Bool := false

/-- The live state of a StateMachineRunner, restricted to the fields the
transition engine reads and writes. -/
structure SMRunner (V : Type) where
  nodes : List (String × SMNode V)
  context : V
  rootInput : V
  machineStatus : SMStatus := .initial
  currentState : CurrentState V
  eventQueue : List (SendOptions V) := []
  events : List (SMEvent V) := []

/-- Lookup `config.nodes[name]`; a validated machine never misses. -/
def lookupNode (r : SMRunner V) (name : String) : Option (SMNode V) :=
  (r.nodes.find? fun kv => kv.1 = name).map (·.2)

/-- The node record of a machine state (missing states behave as empty nodes). -/
def nodeOf (r : SMRunner V) (name : String) : SMNode V :=
  (lookupNode r name).getD {}

/-- The `transition` field of the current state's node. -/
def currentTransition (r : SMRunner V) : Option (TransitionSpec V) :=
  (nodeOf r r.currentState.state).transition

/-- Keyed lookup `transition[eventType]`. -/
def keyedLookup (m : List (String × TransitionValue V)) (eventType : String) :
    Option (TransitionValue V) :=
  (m.find? fun kv => kv.1 = eventType).map (·.2)

/-- Mirrors `StateMachineRunner.transitionsForEvent(eventType)`: for a
bare-string transition return it only when the event type is empty
(`return eventType ? undefined : transitions`), otherwise look the event
type up in the keyed mapping. -/
def transitionsForEvent (r : SMRunner V) (eventType : String) :
    Option (TransitionValue V) :=
  match currentTransition r with
  | some (.always t) => if eventType.isEmpty then some (.target t) else none
  | some (.keyed m) => keyedLookup m eventType
  | none => none

/-- The `{type, data}` object passed to guards: undefined when the event type
is empty (`eventType ? { type: eventType, data: eventData } : undefined`). -/
def eventArg (eventType : String) (eventData : V) : Option (String × V) :=
  if eventType.isEmpty then none else some (eventType, eventData)

/-- The guard-evaluation loop of `resolveTransitions`: first entry without a
condition, or whose condition returns true or an object with `transition`
null or true, wins. -/
def evalTransitionList (gi : GuardInput V) (eventInput : Option (String × V)) :
    List (SMTransition V) → Option String
  | [] => none
  | t :: rest =>
    match t.condition with
    | none => some t.state
    | some cond =>
      match cond gi eventInput with
      | .bool true => some t.state
      | .obj tr =>
        if tr = none ∨ tr = some true then some t.state
        else evalTransitionList gi eventInput rest
      | _ => evalTransitionList gi eventInput rest

/-- Mirrors `StateMachineRunner.resolveTransitions(eventType, eventData)`.
Note that the bare-string form returns its target for every event type:
the code returns `node.transition` before looking at the event. -/
def resolveTransitions (r : SMRunner V) (eventType : String) (eventData : V) :
    Option String :=
  match currentTransition r with
  | some (.always t) => some t
  | none => none
  | some (.keyed m) =>
    match keyedLookup m eventType with
    | none => none
    | some (.target s) => some s
    | some (.single t) =>
      evalTransitionList
        ⟨r.context, r.currentState.input, r.currentState.output, r.rootInput,
          eventArg eventType eventData⟩
        (eventArg eventType eventData) [t]
    | some (.many ts) =>
      evalTransitionList
        ⟨r.context, r.currentState.input, r.currentState.output, r.rootInput,
          eventArg eventType eventData⟩
        (eventArg eventType eventData) ts

/-- Mirrors `StateMachineRunner.transitionTo(nextState, input, eventType,
eventData)`: emit state_machine:transition (with the pre-transition state in
`from`) and replace `currentState`. The machine status is not touched. -/
def transitionTo (r : SMRunner V) (nextState : String) (input : Option V)
    (eventType : String) (eventData : V) : SMRunner V :=
  let nextNode := nodeOf r nextState
  { r with
    events := r.events ++
      [.transitionEvent r.currentState.state nextState r.currentState.input
        r.currentState.output (eventArg eventType eventData) nextNode.final]
    currentState :=
      { state := nextState
        previousState := some r.currentState.state
        event := eventArg eventType eventData
        input := input } }

/-- Mirrors `StateMachineRunner.runTransition(eventType, eventData)`: resolve
and fire; `none` means no transition fired. The fired transition carries the
current node output as the next input. -/
def runTransition (r : SMRunner V) (eventType : String) (eventData : V) :
    Option (SMRunner V) :=
  match resolveTransitions r eventType eventData with
  | none => none
  | some nextState =>
    some (transitionTo r nextState r.currentState.output eventType eventData)

/-- Mirrors `StateMachineRunner.setStatus(newStatus)`: a no-op when the status
is unchanged or the machine is cancelled; otherwise store the status and emit
state_machine:status. -/
def setStatus (r : SMRunner V) (newStatus : SMStatus) : SMRunner V :=
  if r.machineStatus = newStatus ∨ r.machineStatus = .cancelled then r
  else
    { r with
      machineStatus := newStatus
      events := r.events ++ [.statusEvent newStatus r.currentState.state] }

/-- Mirrors `StateMachineRunner.updatePostTransition()`. -/
def updatePostTransition (r : SMRunner V) : SMRunner V :=
  if r.machineStatus = .cancelled then r
  else if (nodeOf r r.currentState.state).final then setStatus r .final
  else setStatus r .ready

/-- Mirrors `StateMachineRunner.cancel()`: set status cancelled, then emit the
`cancelled` emitter event. -/
def cancel (r : SMRunner V) : SMRunner V :=
  let r1 := setStatus r .cancelled
  { r1 with events := r1.events ++ [.cancelledEmit] }

/-- Mirrors `StateMachineRunner.send(options)`: queue the event while running,
or when `queue` is set and the current state has no handler for its type;
otherwise try a transition immediately and update the status if one fired. -/
def send (r : SMRunner V) (options : SendOptions V) : SMRunner V :=
  if r.machineStatus = .running ∨
      (options.queue ∧ (transitionsForEvent r options.type).isNone) then
    { r with eventQueue := r.eventQueue ++ [options] }
  else
    match runTransition r options.type options.data with
    | some r' => updatePostTransition r'
    | none => r

/-- Mirrors `StateMachineRunner.canStep()`. -/
def canStep (r : SMRunner V) : Bool :=
  if r.machineStatus = .running ∨ r.machineStatus = .cancelled ∨
      r.machineStatus = .waitingForEvent then
    false
  else
    let node := nodeOf r r.currentState.state
    node.hasRun ||
      (match node.transition with
      | some (.always _) => true
      | some (.keyed m) => (keyedLookup m "").isSome
      | none => false)

/-- The event-queue drain loop of `step()` (runner.ts lines 286 to 318),
written as the while-loop over the remaining queue with the retained prefix
accumulated: entries are visited in order; `i++` keeps an entry, a splice
drops it; firing a transition switches to the post-transition runner and
marks `transitioned`. -/
def drainLoop (r : SMRunner V) :
    List (SendOptions V) → Bool → List (SendOptions V) →
    SMRunner V × Bool × List (SendOptions V)
  | [], transitioned, kept => (r, transitioned, kept)
  | e :: rest, transitioned, kept =>
    if transitioned then
      if e.queue then drainLoop r rest transitioned (kept ++ [e])
      else drainLoop r rest transitioned kept
    else
      match runTransition r e.type e.data with
      | some r' => drainLoop r' rest true kept
      | none =>
        if e.queue ∧ (transitionsForEvent r e.type).isNone then
          drainLoop r rest false (kept ++ [e])
        else
          drainLoop r rest false kept

/-- The drain phase of `step()` after the node body returned: process the
queued events and store the retained ones back in the queue; returns the
runner and whether some queued event fired a transition. -/
def drainEventQueue (r : SMRunner V) : SMRunner V × Bool :=
  let (r', transitioned, kept) := drainLoop r r.eventQueue false []
  ({ r' with eventQueue := kept }, transitioned)

/-- Accumulator for the declarative restatement of the drain from the
specification text. -/
structure DrainAcc (V : Type) where
  runner : SMRunner V
  fired : Bool
  retained : List (SendOptions V)

/-- The specification text of the drain, per entry: once a transition has
fired during the drain, a remaining entry is retained iff its queue flag is
true; an entry tried before any transition fired is dropped if it fires a
transition, and otherwise retained iff its queue flag is true and the
now-current state declares no transition handler for that event type. -/
def drainSpecStep (acc : DrainAcc V) (e : SendOptions V) : DrainAcc V :=
  if acc.fired then
    { acc with retained := if e.queue then acc.retained ++ [e] else acc.retained }
  else
    match runTransition acc.runner e.type e.data with
    | some r' => { runner := r', fired := true, retained := acc.retained }
    | none =>
      if e.queue ∧ (transitionsForEvent acc.runner e.type).isNone then
        { acc with retained := acc.retained ++ [e] }
      else
        acc

/-- The whole drain as described by the specification: scan the queue in
order with `drainSpecStep` and keep the retained entries. -/
def drainSpecQueue (r : SMRunner V) : SMRunner V × Bool :=
  let acc := r.eventQueue.foldl drainSpecStep ⟨r, false, []⟩
  ({ acc.runner with eventQueue := acc.retained }, acc.fired)

/-- Counts state_machine:transition events in an event log. -/
def transitionEventCount : List (SMEvent V) → Nat
  | [] => 0
  | .transitionEvent _ _ _ _ _ _ :: rest => transitionEventCount rest + 1
  | _ :: rest => transitionEventCount rest

/-- A machine sitting in state a, which carries a bare-string transition to b,
waiting for an event. Used to exercise `resolveTransitions` on external
events. -/
def bareMachine : SMRunner Int :=
  { nodes := [("a", { transition := some (.always "b") }), ("b", { final := true })]
    context := 0
    rootInput := 0
    machineStatus := .waitingForEvent
    currentState := { state := "a" } }

/-- The bare-transition machine after `cancel()` was called. -/
def cancelledMachine : SMRunner Int := cancel bareMachine

end SM

/-! ### DAG compilation (src/dag/compile.ts, analyzeDag)

The node mapping is an association list from node name to parents list, in
object key order; a node with an absent `parents` field behaves exactly like
one with an empty list (`node.parents ?? []`, `!node.parents?.length`), so
parents are a plain list. The recursive JS `step` terminates because `seen`
only ever grows with distinct node names, so the dag embedding carries a
depth fuel, set high enough to be unreachable; exhaustion is an explicit
error value that the totality lemmas rule out. -/

namespace Dag

/-- A DAG node mapping: node names with their parent lists, in key order. -/
abbrev DagSpec := List (String × List String)

/-- The node names of the mapping, in key order. -/
def names (d : DagSpec) : List String := d.map (·.1)

/-- The JS lookup `dag[name]`. -/
def findNode (d : DagSpec) (name : String) : Option (List String) :=
  (d.find? fun kv => kv.1 = name).map (·.2)

/-- The parents of a node, empty for unknown nodes. -/
def parentsOf (d : DagSpec) (name : String) : List String :=
  (findNode d name).getD []

/-- The last element of a seen path (`seen.at(-1)`); the paths handed to the
DFS are never empty. -/
def lastName : List String → String
  | [] => ""
  | [a] => a
  | _ :: rest => lastName rest

/-- The errors `analyzeDag` can throw, plus the unreachable fuel marker. -/
inductive AnalyzeError where
  | unknownParent (child : String) (parent : String)
  | cycle (seen : List String) (parent : String)
  | fuelExhausted
deriving DecidableEq, Repr

/-- The loop body of the JS `step(node, seen)`: iterate over the remaining
parents; for each, delete it from the leaf set, fail on an unknown parent,
fail on a parent already on the path, and otherwise descend via `descend`
before continuing with the rest. -/
def stepParents (d : DagSpec)
    (descend : List String → List String → List String →
      Except AnalyzeError (List String)) :
    List String → List String → List String → Except AnalyzeError (List String)
  | [], _, leaves => .ok leaves
  | p :: rest, seen, leaves =>
    let leaves1 := leaves.erase p
    match findNode d p with
    | none => .error (.unknownParent (lastName seen) p)
    | some pps =>
      if p ∈ seen then .error (.cycle seen p)
      else
        match descend pps (seen ++ [p]) leaves1 with
        | .error e => .error e
        | .ok leaves2 => stepParents d descend rest seen leaves2

/-- The recursive `step`, with the recursion depth bounded by fuel; every
level runs the parents loop with the next level as its descent. -/
def stepGo (d : DagSpec) : Nat → List String → List String → List String →
    Except AnalyzeError (List String)
  | 0 => fun _ _ _ => .error .fuelExhausted
  | fuel + 1 => fun ps seen leaves => stepParents d (stepGo d fuel) ps seen leaves

/-- The main loop of `analyzeDag`: for each node in key order, push it onto
the root list when its parents list is empty, then DFS its ancestors with
the path seeded as `[name]`. The leaf set is threaded through the DFS calls. -/
def analyzeGo (d : DagSpec) :
    List (String × List String) → List String → List String →
    Except AnalyzeError (List String × List String)
  | [], roots, leaves => .ok (roots, leaves)
  | (name, ps) :: rest, roots, leaves =>
    let roots1 := if ps.isEmpty then roots ++ [name] else roots
    match stepGo d (d.length + 1) ps [name] leaves with
    | .error e => .error e
    | .ok leaves1 => analyzeGo d rest roots1 leaves1

/-- Mirrors `analyzeDag(dag)`: leaf candidates start as all node names, root
nodes are the parentless ones, and the DFS walks every ancestor chain. The
fuel `d.length + 1` strictly exceeds every reachable path length. -/
def analyzeDag (d : DagSpec) : Except AnalyzeError (List String × List String) :=
  analyzeGo d d [] (names d)

/-- Reachability along parent edges in exactly k steps, on the specification
side: a cycle is a node reaching itself in at least one step. -/
def reachN (d : DagSpec) : Nat → String → String → Bool
  | 0, a, b => a == b
  | k + 1, a, b => (parentsOf d a).any fun p => reachN d k p b

/-- The specification-side cycle test: some node reaches itself in between 1
and `d.length` parent steps (a shortest cycle visits distinct nodes, so its
length is at most the number of nodes). -/
def hasCycleB (d : DagSpec) : Bool :=
  (names d).any fun a => (List.range d.length).any fun k => reachN d (k + 1) a a

/-- Every parent name mentioned anywhere in the mapping is itself a node. -/
def parentsKnown (d : DagSpec) : Prop :=
  ∀ kv ∈ d, ∀ p ∈ kv.2, p ∈ names d

instance (d : DagSpec) : Decidable (parentsKnown d) := by
  unfold parentsKnown
  infer_instance

/-- A consecutive parent-edge path: each element is followed by one of its
parents. -/
def chainLinked (d : DagSpec) : List String → Prop
  | [] => True
  | [_] => True
  | a :: b :: rest => b ∈ parentsOf d a ∧ chainLinked d (b :: rest)

/-- The node mapping of Scenario A: the diamond DAG. -/
def scenarioADag : DagSpec :=
  [("root", []), ("intone", ["root"]), ("inttwo", ["root"]),
    ("collector", ["intone", "inttwo"])]

end Dag

/-! ### DAG execution for Scenario A (src/dag/runner.ts, src/dag/node_runner.ts,
src/dag/compile.ts)

A deterministic model of one DAG run: `runDag` builds the `CompiledDag`
runners plus the synthetic `__output` runner over the leaf nodes, wires the
one-shot finish subscriptions in construction order (user nodes in config
order, then `__output`), emits `dag:start`, and runs every parentless
runner. A node runner run sets the state to running, emits `dag:node_start`,
invokes the body, and unless cancelled emits `dag:node_finish`, becomes
finished and notifies its subscribed children, each of which removes the
parent from its waiting set, stores the parent output in its input bag and
attempts `run(true)`. Scenario A uses no semaphores, cache, interventions or
cancellation, so those code paths are never entered; the ones that guard
entry (readiness checks, the post-body cancellation check) are modelled.
Node bodies are pure functions of (context value, input bag, root input),
as in the scenario. Fuel bounds the parent-to-child notification depth and
is chosen above the DAG depth. -/

namespace DagRun

/-- JS values flowing between Scenario A nodes: numbers, or the input map
that the synthetic output node returns when there are several leaves. -/
inductive DagVal where
  | i (n : Int)
  | vmap (m : List (String × DagVal))

/-- A node body plus its declared parents (DagNode). -/
structure SimNodeSpec where
  parents : List String := []
  run : Int → List (String × DagVal) → Int → DagVal

/-- DagNodeState of the src/dag variant (dag/types.ts). -/
inductive NodeState where
  | waiting
  | ready
  | intervention
  | pendingSemaphore
  | running
  | cancelled
  | error
  | finished
deriving DecidableEq, Repr

/-- One DagNodeRunner: name, config, state, waiting set and input bag. -/
structure SimNode where
  name : String
  spec : SimNodeSpec
  state : NodeState := .waiting
  waiting : List String := []
  inputs : List (String × DagVal) := []

/-- The event types the run emits through the event callback. -/
inductive SimEventType where
  | dagStart
  | dagFinish
  | dagError
  | nodeStart
  | nodeFinish
  | nodeError
deriving DecidableEq, Repr

/-- One emitted event: its type and the node it came from. -/
structure SimEvent where
  type : SimEventType
  node : String
deriving DecidableEq, Repr

/-- The whole running DAG: every runner (the user runners in config order
followed by the `__output` runner), the context value, the root input, the
emitted events and the resolved output. -/
structure DagSim where
  nodes : List SimNode
  userNames : List String
  context : Int
  rootInput : Int
  events : List SimEvent := []
  output : Option DagVal := none

/-- Find a runner by name. -/
def getNode (sim : DagSim) (name : String) : Option SimNode :=
  sim.nodes.find? fun n => n.name = name

/-- Update a runner in place. -/
def updNode (sim : DagSim) (name : String) (f : SimNode → SimNode) : DagSim :=
  { sim with nodes := sim.nodes.map fun n => if n.name = name then f n else n }

/-- Append an emitted event. -/
def emitEvent (sim : DagSim) (ty : SimEventType) (node : String) : DagSim :=
  { sim with events := sim.events ++ [⟨ty, node⟩] }

/-- JS object assignment `inputs[name] = output`. -/
def setAssoc (m : List (String × DagVal)) (k : String) (v : DagVal) :
    List (String × DagVal) :=
  if (m.find? fun kv => kv.1 = k).isSome then
    m.map fun kv => if kv.1 = k then (k, v) else kv
  else
    m ++ [(k, v)]

/-- The one-shot finish subscriptions of a node, in subscription order:
every runner (user runners in config order, then `__output`) that declares
the finished node as a parent. -/
def childNames (sim : DagSim) (parent : String) : List String :=
  (sim.nodes.filter fun n => parent ∈ n.spec.parents).map (·.name)

/-- The `handleFinishedParent` listener: ignore when no longer waiting;
otherwise remove the parent from the waiting set, store its output in the
input bag and attempt `run(true)` for the child (`runChild`). -/
def handleChild (runChild : DagSim → String → Bool → DagSim) (sim : DagSim)
    (parent : String) (v : DagVal) (c : String) : DagSim :=
  match getNode sim c with
  | none => sim
  | some cn =>
    if cn.state ≠ .waiting then sim
    else
      let sim' := updNode sim c fun n =>
        { n with
          waiting := n.waiting.erase parent
          inputs := setAssoc n.inputs parent v }
      runChild sim' c true

/-- One `DagNodeRunner.run(triggeredFromParentFinished)` call with autorun
true and no semaphores, cache or interventions configured: the readiness
checks, the running state, dag:node_start, the body, the post-body
cancellation check, dag:node_finish, the finished state and the finish
notifications, with the DagRunner `__output` finish handler emitting
dag:finish and resolving the output. -/
def runNodeSim : Nat → DagSim → String → Bool → DagSim
  | 0, sim, _, _ => sim
  | fuel + 1, sim, name, triggered =>
    match getNode sim name with
    | none => sim
    | some nd =>
      let ready := nd.state = .waiting ∨ nd.state = .ready ∨ nd.state = .intervention
      if triggered ∧ (nd.waiting ≠ [] ∨ ¬ready) then sim
      else if ¬triggered ∧ (nd.waiting ≠ [] ∨ ¬(ready ∨ nd.state = .error)) then sim
      else
        let sim1 := updNode sim name fun n => { n with state := .running }
        let sim2 := emitEvent sim1 .nodeStart name
        let outVal := nd.spec.run sim.context nd.inputs sim.rootInput
        match getNode sim2 name with
        | none => sim2
        | some nd2 =>
          if nd2.state = .cancelled then sim2
          else
            let sim3 := emitEvent sim2 .nodeFinish name
            let sim4 := updNode sim3 name fun n => { n with state := .finished }
            let sim5 := (childNames sim4 name).foldl
              (fun acc c => handleChild (runNodeSim fuel) acc name outVal c) sim4
            if name = "__output" then
              { emitEvent sim5 .dagFinish name with output := some outVal }
            else sim5

/-- `DagRunner.run()`: emit dag:start, then run every runner without parents
(autorun is true). -/
def runDagSim (sim : DagSim) (fuel : Nat) : DagSim :=
  let sim1 := emitEvent sim .dagStart ""
  sim.userNames.foldl
    (fun acc nm =>
      match getNode acc nm with
      | none => acc
      | some nd => if nd.spec.parents.isEmpty then runNodeSim fuel acc nm false else acc)
    sim1

/-- Read a numeric entry of the input bag (`input.root` and friends). -/
def lookupVal (m : List (String × DagVal)) (k : String) : Int :=
  match (m.find? fun kv => kv.1 = k).map (·.2) with
  | some (DagVal.i n) => n
  | _ => 0

/-- The body of the synthetic `__output` node from `CompiledDag.buildRunners`:
with exactly one input key return that value, otherwise the whole map. -/
def outputNodeBody : Int → List (String × DagVal) → Int → DagVal :=
  fun _ inp _ =>
    match inp with
    | [(_, v)] => v
    | m => .vmap m

/-- Scenario A wired for execution: the four diamond nodes with the bodies
from the spec, context value 5, root input 10, and the `__output` runner over
the single leaf node collector (the leaf set computed by `analyzeDag` on the
diamond mapping); each waiting set holds the declared parents, as `init`
installs them. -/
def scenarioASim : DagSim :=
  { nodes :=
      [ { name := "root"
          spec := { parents := [], run := fun ctx _ _ => .i (ctx + 1) } }
      , { name := "intone"
          spec := { parents := ["root"]
                    run := fun _ inp _ => .i (lookupVal inp "root" + 1) }
          waiting := ["root"] }
      , { name := "inttwo"
          spec := { parents := ["root"]
                    run := fun _ inp _ => .i (lookupVal inp "root" + 1) }
          waiting := ["root"] }
      , { name := "collector"
          spec := { parents := ["intone", "inttwo"]
                    run := fun _ inp rootInput =>
                      .i (lookupVal inp "intone" + lookupVal inp "inttwo" + rootInput) }
          waiting := ["intone", "inttwo"] }
      , { name := "__output"
          spec := { parents := ["collector"], run := outputNodeBody }
          waiting := ["collector"] } ]
    userNames := ["root", "intone", "inttwo", "collector"]
    context := 5
    rootInput := 10 }

/-- The completed Scenario A run (fuel 10 exceeds the diamond depth). -/
def scenarioARun : DagSim := runDagSim scenarioASim 10

/-- Count the emitted events of one type. -/
def countEvents (evs : List SimEvent) (ty : SimEventType) : Nat :=
  (evs.filter fun e => e.type = ty).length

end DagRun

end Ramus

namespace Ramus

/-! ### Theorems for claim C10 -/

/-- C10: the classification predicate is claimed to return true for fifteen
framework event types including step:error. The code set has only fourteen
members: `isFrameworkEvent` returns false on step:error even though the
framework itself emits step:error events from `runNewStepInternal`, so the
cited code contradicts its own documentation. This theorem evaluates the
embedded code at the failing input and at the other framework types. -/
theorem isFrameworkEvent_missing_step_error :
    isFrameworkEvent "step:error" = false
    ∧ isFrameworkEvent "step:start" = true
    ∧ isFrameworkEvent "step:end" = true
    ∧ isFrameworkEvent "dag:start" = true
    ∧ isFrameworkEvent "dag:finish" = true
    ∧ isFrameworkEvent "dag:error" = true
    ∧ isFrameworkEvent "dag:node_start" = true
    ∧ isFrameworkEvent "dag:node_finish" = true
    ∧ isFrameworkEvent "dag:node_error" = true
    ∧ isFrameworkEvent "dag:node_state" = true
    ∧ isFrameworkEvent "state_machine:start" = true
    ∧ isFrameworkEvent "state_machine:status" = true
    ∧ isFrameworkEvent "state_machine:transition" = true
    ∧ isFrameworkEvent "state_machine:node_start" = true
    ∧ isFrameworkEvent "state_machine:node_finish" = true
    ∧ isFrameworkEvent "some:user_event" = false := by
  decide

/-! ### Theorems for claim C9 -/

/-- C9 counterexample: a node runner in state `pendingSemaphore` is not
cancelled by `DagNodeRunner.cancel()` (and hence not by `DagRunner.cancel()`),
contradicting the claim that every non-terminal node, including those in
`pendingSemaphore`, is cancelled after a node error under
tolerate_failures = false. -/
theorem cancelNode_pendingSemaphore_not_cancelled :
    Workflow.cancelNode .pendingSemaphore = .pendingSemaphore
    ∧ Workflow.dagCancel [.pendingSemaphore] = [.pendingSemaphore]
    ∧ Workflow.DagNodeState.pendingSemaphore ≠ .cancelled := by
  decide

/-- C9 amended: `cancel()` moves exactly the states `waiting`, `ready` and
`running` to `cancelled` (and leaves a runner that is already `cancelled`
as it is); a runner in `pendingSemaphore`, `error` or `finished` is left
unchanged, so a node that was acquiring a semaphore when the error occurred
is not cancelled and may later finish normally. -/
theorem cancelNode_characterization :
    ∀ s : Workflow.DagNodeState,
      (Workflow.cancelNode s = .cancelled ↔
        (s = .waiting ∨ s = .ready ∨ s = .running ∨ s = .cancelled))
      ∧ (Workflow.cancelNode s ≠ .cancelled → Workflow.cancelNode s = s) := by
  decide

/-! ### Theorems for claim C4 -/

/-- C4 counterexample: in a reachable state with a pending waiter
(limit lowered to 1 while current = 2 and waiter 3 queued), `release` does
not hand the freed slot to the head of the waiter queue: it decrements the
count instead and the waiter stays queued. This refutes the claim that the
slot is handed over whenever pending waiters exist. -/
theorem release_with_waiters_not_handed :
    lowerLimitState.get "k" = some ⟨1, 2, [3]⟩
    ∧ (lowerLimitState.release "k").2 = none
    ∧ (lowerLimitState.release "k").1.get "k" = some ⟨1, 1, [3]⟩ := by
  decide

/-- C4 amended: for a configured key, `release` hands the freed slot to the
head of the pending queue exactly when pending waiters exist and the current
count equals the limit; otherwise (in particular when the limit was lowered
below the current count) it decrements the count, clamped at zero, and no
waiter is resolved. -/
theorem release_characterization (s : LocalSemaphore) (key : String)
    (v : SemaphoreClass) (h : s.get key = some v) :
    (∀ w rest, v.pending = w :: rest → v.current = v.limit →
      s.release key = (s.set key { v with pending := rest }, some w))
    ∧ (v.pending = [] ∨ v.current ≠ v.limit →
      s.release key = (s.set key { v with current := v.current - 1 }, none)) := by
  constructor
  · intro w rest hp hc
    simp only [LocalSemaphore.release, h, hp, hc]
    simp
  · intro hcase
    simp only [LocalSemaphore.release, h]
    rcases hcase with hp | hc
    · simp [hp]
    · simp [hc]

/-- Witness for the C4 amended theorem at a concrete reachable state. -/
theorem release_characterization_witness :
    lowerLimitState.get "k" = some ⟨1, 2, [3]⟩
    ∧ (lowerLimitState.release "k" =
        (lowerLimitState.set "k" ⟨1, 1, [3]⟩, none)) := by
  refine ⟨by decide, ?_⟩
  have h := release_characterization lowerLimitState "k" ⟨1, 2, [3]⟩ (by decide)
  exact h.2 (by decide)

/-! ### Helper lemmas for the acquireSemaphores model -/

theorem updAt_add_sub (l : List Int) (i : Nat) :
    updAt (updAt l i (· + 1)) i (· - 1) = l := by
  induction l generalizing i with
  | nil => rfl
  | cons x xs ih =>
    cases i with
    | zero => simp [updAt]
    | succ n => simp [updAt, ih]

theorem zip_acqAdd_replicate (init : List Int) :
    List.zipWith acqAdd init (List.replicate init.length false) = init := by
  induction init with
  | nil => rfl
  | cons x xs ih => simp [List.replicate, List.zipWith, acqAdd, ih]

theorem getFlag_replicate (n i : Nat) :
    getFlag (List.replicate n false) i = false := by
  induction n generalizing i with
  | zero => rfl
  | succ n ih => cases i <;> simp [List.replicate, getFlag, ih]

theorem setTrue_length (l : List Bool) (i : Nat) :
    (setTrue l i).length = l.length := by
  induction l generalizing i with
  | nil => rfl
  | cons x xs ih => cases i <;> simp [setTrue, ih]

theorem getFlag_setTrue_ne (l : List Bool) (i j : Nat) (h : i ≠ j) :
    getFlag (setTrue l i) j = getFlag l j := by
  induction l generalizing i j with
  | nil => rfl
  | cons x xs ih =>
    cases i with
    | zero =>
      cases j with
      | zero => exact absurd rfl h
      | succ m => simp [setTrue, getFlag]
    | succ n =>
      cases j with
      | zero => simp [setTrue, getFlag]
      | succ m =>
        simp only [setTrue, getFlag]
        exact ih n m (by omega)

theorem zipWith_acqAdd_setTrue (init : List Int) (acq : List Bool) (i : Nat)
    (hflag : getFlag acq i = false) :
    updAt (List.zipWith acqAdd init acq) i (· + 1) =
      List.zipWith acqAdd init (setTrue acq i) := by
  induction init generalizing acq i with
  | nil => simp [updAt]
  | cons c cs ih =>
    cases acq with
    | nil => simp [updAt, setTrue]
    | cons a as =>
      cases i with
      | zero =>
        have ha : a = false := hflag
        subst ha
        simp [updAt, setTrue, acqAdd]
      | succ n =>
        simp only [List.zipWith, updAt, setTrue]
        have := ih as n hflag
        rw [this]

theorem zipWith_sub_acqAdd (init : List Int) (acq : List Bool)
    (hlen : acq.length = init.length) :
    List.zipWith (fun c a => if a then c - 1 else c)
      (List.zipWith acqAdd init acq) acq = init := by
  induction init generalizing acq with
  | nil =>
    cases acq with
    | nil => rfl
    | cons a as => simp at hlen
  | cons c cs ih =>
    cases acq with
    | nil => simp at hlen
    | cons a as =>
      simp only [List.zipWith]
      have ht := ih as (by simpa using hlen)
      rw [ht]
      cases a <;> simp [acqAdd]

theorem acqStep_error_mono (s : AcqState) (e : AcqEvent) (h : s.error = true) :
    (acqStep s e).error = true := by
  cases e with
  | complete i ok => cases ok <;> simp [acqStep, h]
  | runCatch => simp [acqStep]

theorem acq_error_mono (sched : List AcqEvent) (s : AcqState) (h : s.error = true) :
    (sched.foldl acqStep s).error = true := by
  induction sched generalizing s with
  | nil => exact h
  | cons e rest ih => exact ih (acqStep s e) (acqStep_error_mono s e h)

theorem acq_catch_error (sched : List AcqEvent) (s : AcqState)
    (h : 1 ≤ catchCount sched) : (sched.foldl acqStep s).error = true := by
  induction sched generalizing s with
  | nil => exact absurd h (by decide)
  | cons e rest ih =>
    cases e with
    | runCatch =>
      rw [List.foldl_cons]
      exact acq_error_mono rest (acqStep s .runCatch) (by simp [acqStep])
    | complete i ok =>
      simp only [catchCount] at h
      exact ih (acqStep s (.complete i ok)) h

theorem acq_go (init : List Int) :
    ∀ (sched : List AcqEvent) (s : AcqState),
    s.acquired.length = init.length →
    (s.error = false → s.counts = List.zipWith acqAdd init s.acquired) →
    (s.error = true → s.counts = init) →
    (∀ i b, AcqEvent.complete i b ∈ sched → getFlag s.acquired i = false) →
    (sched.filterMap completeIndex).Nodup →
    (s.error = false → catchCount sched ≤ 1) →
    (s.error = true → catchCount sched = 0) →
    ((sched.foldl acqStep s).error = false →
        (sched.foldl acqStep s).counts =
          List.zipWith acqAdd init (sched.foldl acqStep s).acquired)
    ∧ ((sched.foldl acqStep s).error = true → (sched.foldl acqStep s).counts = init) := by
  intro sched
  induction sched with
  | nil =>
    intro s _ hf ht _ _ _ _
    exact ⟨hf, ht⟩
  | cons e rest ih =>
    intro s hlen hf ht hflags hnodup hc0 hc1
    cases e with
    | runCatch =>
      cases herr : s.error with
      | true =>
        have := hc1 herr
        simp [catchCount] at this
      | false =>
        have hcounts := hf herr
        have hrest : catchCount rest = 0 := by
          have := hc0 herr
          simp only [catchCount] at this
          omega
        simp only [List.foldl_cons]
        apply ih
        · simpa [acqStep] using hlen
        · intro hfe
          simp [acqStep] at hfe
        · intro _
          simp only [acqStep]
          rw [hcounts]
          exact zipWith_sub_acqAdd init s.acquired hlen
        · intro i b hmem
          simpa [acqStep] using hflags i b (List.mem_cons_of_mem _ hmem)
        · simpa [completeIndex, List.filterMap_cons] using hnodup
        · intro _
          omega
        · intro _
          exact hrest
    | complete i ok =>
      cases ok with
      | false =>
        simp only [List.foldl_cons]
        apply ih
        · simpa [acqStep] using hlen
        · simpa [acqStep] using hf
        · simpa [acqStep] using ht
        · intro i' b' hmem
          simpa [acqStep] using hflags i' b' (List.mem_cons_of_mem _ hmem)
        · have hn := hnodup
          simp only [completeIndex, List.filterMap_cons] at hn
          exact (List.nodup_cons.mp hn).2
        · simpa [acqStep, catchCount] using hc0
        · simpa [acqStep, catchCount] using hc1
      | true =>
        cases herr : s.error with
        | true =>
          have hcounts := ht herr
          simp only [List.foldl_cons]
          apply ih
          · simpa [acqStep, herr] using hlen
          · intro hfe
            simp [acqStep, herr] at hfe
          · intro _
            simp only [acqStep, herr, if_pos]
            simp only [hcounts]
            exact updAt_add_sub init i
          · intro i' b' hmem
            simpa [acqStep, herr] using hflags i' b' (List.mem_cons_of_mem _ hmem)
          · have hn := hnodup
            simp only [completeIndex, List.filterMap_cons] at hn
            exact (List.nodup_cons.mp hn).2
          · intro hfe
            simp [acqStep, herr] at hfe
          · intro _
            simpa [catchCount] using hc1 herr
        | false =>
          have hcounts := hf herr
          have hi : getFlag s.acquired i = false :=
            hflags i true (List.mem_cons_self _ _)
          have hnd :
              i ∉ (rest.filterMap completeIndex) ∧
                (rest.filterMap completeIndex).Nodup := by
            have hn := hnodup
            simp only [completeIndex, List.filterMap_cons] at hn
            exact List.nodup_cons.mp hn
          simp only [List.foldl_cons]
          apply ih
          · simpa [acqStep, herr, setTrue_length] using hlen
          · intro _
            simp only [acqStep, herr, if_neg, Bool.false_eq_true, not_false_eq_true]
            simp only [hcounts]
            exact zipWith_acqAdd_setTrue init s.acquired i hi
          · intro hte
            simp [acqStep, herr] at hte
          · intro i' b' hmem
            have hne : i ≠ i' := by
              intro hii
              subst hii
              exact hnd.1 (List.mem_filterMap.mpr ⟨.complete i b', hmem, rfl⟩)
            have := hflags i' b' (List.mem_cons_of_mem _ hmem)
            simpa [acqStep, herr, getFlag_setTrue_ne s.acquired i i' hne] using this
          · exact hnd.2
          · intro _
            have := hc0 herr
            simpa [catchCount] using this
          · intro hte
            simp [acqStep, herr] at hte

/-! ### Theorems for claim C3 -/

/-- C3: in any interleaved run of `acquireSemaphores(semaphores, key)` in which
some acquisition fails (the catch handler runs once, after the first failed
acquisition), every already-completed acquisition is released by the catch
handler and every acquisition completing after the failure flag is raised
releases itself immediately, so each semaphore count for the key returns to
its pre-call value at the end of the run. -/
theorem acquireSemaphores_restores_counts (init : List Int) (sched : List AcqEvent)
    (hnodup : (sched.filterMap completeIndex).Nodup)
    (hcatch : catchCount sched = 1)
    (hfail : failureBeforeCatch sched = true) :
    (runAcq init sched).counts = init := by
  have herr : (runAcq init sched).error = true := by
    apply acq_catch_error
    omega
  have hinv := acq_go init sched ⟨init, List.replicate init.length false, false⟩
    (by simp)
    (fun _ => (zip_acqAdd_replicate init).symm)
    (by intro h; simp at h)
    (fun i b _ => getFlag_replicate init.length i)
    hnodup
    (fun _ => by omega)
    (by intro h; simp at h)
  exact hinv.2 herr

/-- Witness for the C3 theorem: three semaphores at pre-call counts 0, 1, 0;
semaphore 0 acquires successfully, semaphore 1 fails, the catch handler runs,
and semaphore 2 completes its acquisition late; all counts end at their
pre-call values. -/
theorem acquireSemaphores_restores_counts_witness :
    (([AcqEvent.complete 0 true, .complete 1 false, .runCatch,
        .complete 2 true].filterMap completeIndex).Nodup
      ∧ catchCount [AcqEvent.complete 0 true, .complete 1 false, .runCatch,
          .complete 2 true] = 1
      ∧ failureBeforeCatch [AcqEvent.complete 0 true, .complete 1 false, .runCatch,
          .complete 2 true] = true)
    ∧ (runAcq [0, 1, 0] [AcqEvent.complete 0 true, .complete 1 false, .runCatch,
        .complete 2 true]).counts = [0, 1, 0] :=
  ⟨⟨by decide, by decide, by decide⟩,
    acquireSemaphores_restores_counts [0, 1, 0]
      [AcqEvent.complete 0 true, .complete 1 false, .runCatch, .complete 2 true]
      (by decide) (by decide) (by decide)⟩

/-! ### Theorems for claim C5 -/

/-- C5: without skipLogging, `runNewStepInternal` logs exactly one step:start
event carrying the freshly allocated step id, followed by exactly one terminal
event with the same step id and run id: step:end when the body returns and
step:error when it throws, with the start time of the start event not after
the end time of the terminal event; the body result (value or exception)
propagates unchanged. -/
theorem runStep_start_end_pairing (options : StepOptions) (oldContext : EventContext)
    (freshStep : String) (bodyResult : Except String Int) (t0 dur : Nat)
    (h : options.skipLogging = false) :
    ∃ startEv termEv,
      (runNewStepInternal options oldContext freshStep bodyResult t0 dur).1 =
        [startEv, termEv]
      ∧ startEv.type = "step:start"
      ∧ termEv.type =
          (match bodyResult with | .ok _ => "step:end" | .error _ => "step:error")
      ∧ startEv.step = some freshStep
      ∧ termEv.step = some freshStep
      ∧ startEv.runId = oldContext.runId
      ∧ termEv.runId = oldContext.runId
      ∧ termEv.end_time = some (t0 + dur)
      ∧ startEv.start_time ≤ t0 + dur
      ∧ (runNewStepInternal options oldContext freshStep bodyResult t0 dur).2 =
          bodyResult := by
  cases bodyResult with
  | ok v =>
    simp only [runNewStepInternal, h, Bool.false_eq_true, if_false]
    exact ⟨_, _, rfl, rfl, rfl, rfl, rfl, rfl, rfl, rfl, Nat.le_add_right t0 dur, trivial⟩
  | error e =>
    simp only [runNewStepInternal, h, Bool.false_eq_true, if_false]
    exact ⟨_, _, rfl, rfl, rfl, rfl, rfl, rfl, rfl, rfl, Nat.le_add_right t0 dur, trivial⟩

/-- Witness for the C5 theorem at a concrete step invocation. -/
theorem runStep_start_end_pairing_witness :
    ({ name := "work" } : StepOptions).skipLogging = false
    ∧ ∃ startEv termEv,
      (runNewStepInternal { name := "work" } ⟨"run1", "wf", none, some "outer"⟩
          "step7" (.ok 42) 5 3).1 = [startEv, termEv]
      ∧ startEv.type = "step:start"
      ∧ termEv.type = (match (Except.ok 42 : Except String Int) with
          | .ok _ => "step:end" | .error _ => "step:error")
      ∧ startEv.step = some "step7"
      ∧ termEv.step = some "step7"
      ∧ startEv.runId = "run1"
      ∧ termEv.runId = "run1"
      ∧ termEv.end_time = some (5 + 3)
      ∧ startEv.start_time ≤ 5 + 3
      ∧ (runNewStepInternal { name := "work" } ⟨"run1", "wf", none, some "outer"⟩
          "step7" (.ok 42) 5 3).2 = .ok 42 :=
  ⟨rfl, runStep_start_end_pairing { name := "work" } ⟨"run1", "wf", none, some "outer"⟩
    "step7" (.ok 42) 5 3 rfl⟩

/-! ### Theorems for claim C6 -/

/-- C6 counterexample: in a state whose transition is the bare string b, an
external `send` of the non-empty event type x fires the transition: the
machine moves from a to b. This refutes the claim that the bare-string
transition fires only for the empty event type. -/
theorem bare_transition_fires_on_external_event :
    SM.resolveTransitions SM.bareMachine "x" 0 = some "b"
    ∧ (SM.send SM.bareMachine ⟨"x", 0, false⟩).currentState.state = "b"
    ∧ SM.bareMachine.currentState.state = "a"
    ∧ "x" ≠ "" :=
  ⟨rfl, rfl, rfl, by decide⟩

/-- C6 amended: `resolveTransitions` returns the bare-string target for every
event type, empty or not, so a non-queued `send` of an external event fires
it; only `transitionsForEvent` (used for the queueing decision, `canStep` and
queue-drain retention) treats the bare form as matching the empty event type
alone. -/
theorem resolveTransitions_bare_string {V : Type} (r : SM.SMRunner V)
    (target : String) (et : String) (ed : V)
    (h : SM.currentTransition r = some (.always target)) :
    SM.resolveTransitions r et ed = some target
    ∧ (et ≠ "" → SM.transitionsForEvent r et = none)
    ∧ SM.transitionsForEvent r "" = some (.target target) := by
  refine ⟨?_, ?_, ?_⟩
  · simp [SM.resolveTransitions, h]
  · intro hne
    have hie : et.isEmpty = false := by
      cases hcase : et.isEmpty with
      | false => rfl
      | true => exact absurd ((String.isEmpty_iff et).mp hcase) hne
    simp [SM.transitionsForEvent, h, hie]
  · simp [SM.transitionsForEvent, h, String.isEmpty_iff]

/-- Witness for the C6 amended theorem on the concrete bare-string machine. -/
theorem resolveTransitions_bare_string_witness :
    SM.currentTransition SM.bareMachine = some (.always "b")
    ∧ (SM.resolveTransitions SM.bareMachine "y" 7 = some "b"
      ∧ ("y" ≠ "" → SM.transitionsForEvent SM.bareMachine "y" = none)
      ∧ SM.transitionsForEvent SM.bareMachine "" = some (.target "b")) :=
  ⟨rfl, resolveTransitions_bare_string SM.bareMachine "b" "y" 7 rfl⟩

/-! ### Theorems for claim C7 -/

/-- The while-loop form of the drain agrees with the left fold over the queue. -/
theorem drainLoop_foldl {V : Type} :
    ∀ (q : List (SM.SendOptions V)) (r : SM.SMRunner V) (t : Bool)
      (kept : List (SM.SendOptions V)),
    SM.drainLoop r q t kept =
      ((q.foldl SM.drainSpecStep ⟨r, t, kept⟩).runner,
        (q.foldl SM.drainSpecStep ⟨r, t, kept⟩).fired,
        (q.foldl SM.drainSpecStep ⟨r, t, kept⟩).retained) := by
  intro q
  induction q with
  | nil => intro r t kept; rfl
  | cons e rest ih =>
    intro r t kept
    cases t with
    | true =>
      cases hq : e.queue with
      | true => simp [SM.drainLoop, SM.drainSpecStep, hq, ih]
      | false => simp [SM.drainLoop, SM.drainSpecStep, hq, ih]
    | false =>
      cases hrt : SM.runTransition r e.type e.data with
      | some r' => simp [SM.drainLoop, SM.drainSpecStep, hrt, ih]
      | none =>
        cases hq : e.queue with
        | true =>
          cases hn : (SM.transitionsForEvent r e.type).isNone with
          | true =>
            simp [SM.drainLoop, SM.drainSpecStep, List.foldl_cons, hrt, hq, hn, ih]
          | false =>
            simp [SM.drainLoop, SM.drainSpecStep, List.foldl_cons, hrt, hq, hn, ih]
        | false =>
          simp [SM.drainLoop, SM.drainSpecStep, List.foldl_cons, hrt, hq, ih]

/-- C7: the event-queue drain after a node body returns behaves exactly as the
specification describes: entries are scanned in order; after a transition has
fired during the drain an entry is retained iff its queue flag is true; an
entry tried before any transition fired is dropped when it fires a
transition, and otherwise retained iff its queue flag is true and the current
state declares no transition handler for its event type (so a handler whose
guard denied the event drops the entry). -/
theorem drainEventQueue_matches_spec {V : Type} (r : SM.SMRunner V) :
    SM.drainEventQueue r = SM.drainSpecQueue r := by
  unfold SM.drainEventQueue SM.drainSpecQueue
  rw [drainLoop_foldl]

/-! ### Theorems for claim C8 -/

/-- C8 counterexample: after `cancel()`, a `send` of a non-queued external
event still fires the bare-string transition: the current state changes from
a to b and a state_machine:transition event is emitted. This refutes the
claim that a cancelled machine never transitions further. -/
theorem cancelled_machine_still_transitions_on_send :
    SM.cancelledMachine.machineStatus = .cancelled
    ∧ SM.cancelledMachine.currentState.state = "a"
    ∧ (SM.send SM.cancelledMachine ⟨"x", 0, false⟩).currentState.state = "b"
    ∧ SM.transitionEventCount (SM.send SM.cancelledMachine ⟨"x", 0, false⟩).events =
        SM.transitionEventCount SM.cancelledMachine.events + 1 :=
  ⟨rfl, rfl, rfl, rfl⟩

/-- C8 amended: once cancelled, the machine status is sticky: `setStatus`
leaves the status cancelled, `canStep()` is false (so `run()` never performs
another step), and `send` leaves the status cancelled; but `send` of a
matching non-queued event still changes the current state and emits a
state_machine:transition event, as the counterexample shows. -/
theorem cancelled_machine_status_sticky {V : Type} (r : SM.SMRunner V)
    (h : r.machineStatus = .cancelled) (o : SM.SendOptions V) (s : SM.SMStatus) :
    (SM.send r o).machineStatus = .cancelled
    ∧ SM.canStep r = false
    ∧ (SM.setStatus r s).machineStatus = .cancelled
    ∧ (SM.cancel r).machineStatus = .cancelled := by
  have hset : ∀ s' : SM.SMStatus, (SM.setStatus r s').machineStatus = .cancelled := by
    intro s'
    unfold SM.setStatus
    have hor : r.machineStatus = s' ∨ r.machineStatus = .cancelled := Or.inr h
    simp [hor, h]
  refine ⟨?_, ?_, hset s, ?_⟩
  · unfold SM.send
    by_cases hcond : r.machineStatus = .running ∨
        (o.queue = true ∧ (SM.transitionsForEvent r o.type).isNone = true)
    · rw [if_pos hcond]
      exact h
    · rw [if_neg hcond]
      cases hrt : SM.runTransition r o.type o.data with
      | none => exact h
      | some r' =>
        have hr' : r'.machineStatus = SM.SMStatus.cancelled := by
          unfold SM.runTransition at hrt
          cases hres : SM.resolveTransitions r o.type o.data with
          | none => rw [hres] at hrt; exact absurd hrt (by simp)
          | some nextState =>
            rw [hres] at hrt
            simp only [Option.some.injEq] at hrt
            rw [← hrt]
            exact h
        simp [SM.updatePostTransition, hr']
  · simp [SM.canStep, h]
  · unfold SM.cancel
    simp [hset]

/-- Witness for the C8 amended theorem on the concrete cancelled machine. -/
theorem cancelled_machine_status_sticky_witness :
    SM.cancelledMachine.machineStatus = .cancelled
    ∧ ((SM.send SM.cancelledMachine ⟨"z", 3, true⟩).machineStatus = .cancelled
      ∧ SM.canStep SM.cancelledMachine = false
      ∧ (SM.setStatus SM.cancelledMachine .ready).machineStatus = .cancelled
      ∧ (SM.cancel SM.cancelledMachine).machineStatus = .cancelled) :=
  ⟨rfl, cancelled_machine_status_sticky SM.cancelledMachine rfl ⟨"z", 3, true⟩ .ready⟩

/-! ### Helper lemmas for analyzeDag -/

namespace Dag

theorem findNode_eq_none {d : DagSpec} {p : String} :
    findNode d p = none ↔ p ∉ names d := by
  simp only [findNode, Option.map_eq_none', List.find?_eq_none, names, List.mem_map,
    decide_eq_true_eq]
  constructor
  · rintro h ⟨kv, hkv, rfl⟩
    exact h kv hkv rfl
  · intro h kv hkv hfst
    exact h ⟨kv, hkv, hfst⟩

theorem findNode_mem {d : DagSpec} {p : String} {ps : List String}
    (h : findNode d p = some ps) : (p, ps) ∈ d := by
  simp only [findNode, Option.map_eq_some'] at h
  obtain ⟨kv, hfind, hsnd⟩ := h
  have hmem := List.mem_of_find?_eq_some hfind
  have hpred := List.find?_some hfind
  simp only [decide_eq_true_eq] at hpred
  obtain ⟨k1, k2⟩ := kv
  simp only at hpred hsnd
  subst hpred
  subst hsnd
  exact hmem

theorem mem_names_of_findNode {d : DagSpec} {p : String} {ps : List String}
    (h : findNode d p = some ps) : p ∈ names d :=
  List.mem_map.mpr ⟨(p, ps), findNode_mem h, rfl⟩

theorem findNode_of_mem_nodup {d : DagSpec} (hnodup : (names d).Nodup)
    {p : String} {ps : List String} (h : (p, ps) ∈ d) : findNode d p = some ps := by
  induction d with
  | nil => cases h
  | cons kv rest ih =>
    obtain ⟨q, qs⟩ := kv
    have hn : q ∉ names rest ∧ (names rest).Nodup :=
      List.nodup_cons.mp (show (q :: names rest).Nodup from hnodup)
    rcases List.mem_cons.mp h with heq | hmem
    · obtain ⟨h1, h2⟩ := Prod.mk.injEq .. ▸ heq
      subst h1
      subst h2
      simp [findNode]
    · have hpq : q ≠ p := by
        intro hqp
        subst hqp
        exact hn.1 (List.mem_map.mpr ⟨(q, ps), hmem, rfl⟩)
      have ih' := ih hn.2 hmem
      simpa [findNode, List.find?, hpq] using ih'

theorem parentsOf_known {d : DagSpec} (hknown : parentsKnown d) {q nm : String}
    (h : q ∈ parentsOf d nm) : q ∈ names d := by
  unfold parentsOf at h
  cases hfn : findNode d nm with
  | none => rw [hfn] at h; simp at h
  | some ps =>
    rw [hfn] at h
    simp only [Option.getD_some] at h
    exact hknown (nm, ps) (findNode_mem hfn) q h

theorem nodup_subset_length {l l' : List String} (h : l.Nodup)
    (hs : ∀ x ∈ l, x ∈ l') : l.length ≤ l'.length :=
  (List.subperm_of_subset h hs).length_le

theorem nodup_snoc {l : List String} {a : String} (h : l.Nodup) (ha : a ∉ l) :
    (l ++ [a]).Nodup := by
  simp only [List.nodup_append, List.nodup_cons, List.not_mem_nil, not_false_eq_true,
    List.nodup_nil, and_true, true_and]
  refine ⟨h, ?_⟩
  intro x hx
  simp only [List.mem_singleton]
  intro hxa
  subst hxa
  exact ha hx

theorem chainLinked_cons {d : DagSpec} {a : String} {l : List String}
    (h : chainLinked d (a :: l)) : chainLinked d l := by
  cases l with
  | nil => trivial
  | cons b r => exact h.2

theorem lastName_mem : ∀ {l : List String}, l ≠ [] → lastName l ∈ l := by
  intro l
  induction l with
  | nil => intro h; exact absurd rfl h
  | cons a rest ih =>
    intro _
    cases rest with
    | nil => simp [lastName]
    | cons b r =>
      exact List.mem_cons_of_mem a (ih (by simp))

theorem lastName_append_cons (pre : List String) (a : String) (t : List String) :
    lastName (pre ++ a :: t) = lastName (a :: t) := by
  induction pre with
  | nil => rfl
  | cons x pre' ih =>
    cases pre' with
    | nil => rfl
    | cons y pre'' => exact ih

theorem lastName_append_single (l : List String) (p : String) :
    lastName (l ++ [p]) = p := by
  rw [lastName_append_cons]
  rfl

theorem chainLinked_append {d : DagSpec} (p : String) :
    ∀ l : List String, l ≠ [] → chainLinked d l →
    p ∈ parentsOf d (lastName l) → chainLinked d (l ++ [p]) := by
  intro l
  induction l with
  | nil => intro h; exact absurd rfl h
  | cons a rest ih =>
    intro _ hch hp
    cases rest with
    | nil => exact ⟨hp, trivial⟩
    | cons b r => exact ⟨hch.1, ih (by simp) hch.2 hp⟩

theorem chainLinked_drop_pre {d : DagSpec} :
    ∀ (pre l : List String), chainLinked d (pre ++ l) → chainLinked d l := by
  intro pre
  induction pre with
  | nil => intro l h; exact h
  | cons x pre' ih =>
    intro l h
    exact ih l (chainLinked_cons h)

theorem chain_reach {d : DagSpec} :
    ∀ (t : List String) (a q : String), chainLinked d (a :: t) →
    q ∈ parentsOf d (lastName (a :: t)) → reachN d (t.length + 1) a q = true := by
  intro t
  induction t with
  | nil =>
    intro a q _ hq
    simp only [List.length_nil, reachN, List.any_eq_true]
    exact ⟨q, hq, by simp [reachN]⟩
  | cons b t' ih =>
    intro a q hch hq
    have h2 := ih b q hch.2 hq
    show (parentsOf d a).any (fun p => reachN d (t'.length + 1) p q) = true
    exact List.any_eq_true.mpr ⟨b, hch.1, h2⟩

theorem cycle_facts_hasCycle {d : DagSpec} {seen' : List String} {p' : String}
    (hmem : p' ∈ seen') (hch : chainLinked d seen') (hnd : seen'.Nodup)
    (hsub : ∀ x ∈ seen', x ∈ names d)
    (hp : p' ∈ parentsOf d (lastName seen')) : hasCycleB d = true := by
  obtain ⟨pre, t, rfl⟩ := List.append_of_mem hmem
  have hch' : chainLinked d (p' :: t) := chainLinked_drop_pre pre _ hch
  have hlast : lastName (pre ++ p' :: t) = lastName (p' :: t) :=
    lastName_append_cons pre p' t
  have hreach : reachN d (t.length + 1) p' p' = true :=
    chain_reach t p' p' hch' (by rw [← hlast]; exact hp)
  have hlen : t.length + 1 ≤ (names d).length := by
    have h1 : (pre ++ p' :: t).length ≤ (names d).length := nodup_subset_length hnd hsub
    simp only [List.length_append, List.length_cons] at h1
    omega
  have hdlen : (names d).length = d.length := List.length_map d _
  apply List.any_eq_true.mpr
  refine ⟨p', hsub p' hmem, ?_⟩
  apply List.any_eq_true.mpr
  exact ⟨t.length, List.mem_range.mpr (by omega), hreach⟩

theorem stepGo_error_cycle (d : DagSpec) (hknown : parentsKnown d) :
    ∀ (fuel : Nat) (ps seen leaves : List String) (e : AnalyzeError),
    stepGo d fuel ps seen leaves = .error e →
    seen.Nodup → (∀ x ∈ seen, x ∈ names d) →
    (names d).length + 1 ≤ fuel + seen.length →
    chainLinked d seen → seen ≠ [] →
    (∀ x ∈ ps, x ∈ parentsOf d (lastName seen)) →
    ∃ seen' p', e = .cycle seen' p' ∧ p' ∈ seen' ∧ chainLinked d seen'
      ∧ seen'.Nodup ∧ (∀ x ∈ seen', x ∈ names d) ∧ seen' ≠ []
      ∧ p' ∈ parentsOf d (lastName seen') := by
  intro fuel
  induction fuel with
  | zero =>
    intro ps seen leaves e h hnd hsub hfl _ _ _
    exfalso
    have := nodup_subset_length hnd hsub
    omega
  | succ fuel ihf =>
    intro ps
    induction ps with
    | nil =>
      intro seen leaves e h
      simp [stepGo, stepParents] at h
    | cons p rest ihp =>
      intro seen leaves e h hnd hsub hfl hch hne hps
      rw [show stepGo d (fuel + 1) (p :: rest) seen leaves =
        stepParents d (stepGo d fuel) (p :: rest) seen leaves from rfl] at h
      simp only [stepParents] at h
      cases hfn : findNode d p with
      | none =>
        exfalso
        have hpn : p ∈ names d :=
          parentsOf_known hknown (hps p (List.mem_cons_self p rest))
        rw [findNode_eq_none] at hfn
        exact hfn hpn
      | some pps =>
        rw [hfn] at h
        simp only [] at h
        by_cases hp : p ∈ seen
        · rw [if_pos hp] at h
          injection h with h2
          exact ⟨seen, p, h2.symm, hp, hch, hnd, hsub, hne,
            hps p (List.mem_cons_self p rest)⟩
        · rw [if_neg hp] at h
          cases hin : stepGo d fuel pps (seen ++ [p]) (leaves.erase p) with
          | error e' =>
            rw [hin] at h
            simp only [] at h
            injection h with h2
            subst h2
            apply ihf pps (seen ++ [p]) (leaves.erase p) e' hin
            · exact nodup_snoc hnd hp
            · intro x hx
              rcases List.mem_append.mp hx with hx | hx
              · exact hsub x hx
              · rw [List.mem_singleton.mp hx]
                exact mem_names_of_findNode hfn
            · simp only [List.length_append, List.length_singleton]
              omega
            · exact chainLinked_append p seen hne hch (hps p (List.mem_cons_self p rest))
            · simp
            · intro x hx
              rw [lastName_append_single]
              simpa [parentsOf, hfn] using hx
          | ok leaves2 =>
            rw [hin] at h
            simp only [] at h
            exact ihp seen leaves2 e h hnd hsub hfl hch hne
              (fun x hx => hps x (List.mem_cons_of_mem _ hx))

theorem stepGo_ok_no_reach (d : DagSpec) :
    ∀ (k fuel : Nat) (ps seen leaves leaves' : List String),
    stepGo d fuel ps seen leaves = .ok leaves' →
    ∀ x y, x ∈ ps → reachN d k x y = true → y ∉ seen := by
  intro k
  induction k using Nat.strong_induction_on with
  | _ k ihk =>
    intro fuel
    cases fuel with
    | zero =>
      intro ps seen leaves leaves' h
      simp [stepGo] at h
    | succ fuel =>
      intro ps
      induction ps with
      | nil =>
        intro seen leaves leaves' _ x y hx
        exact absurd hx (List.not_mem_nil x)
      | cons p rest ihp =>
        intro seen leaves leaves' h x y hx hr hy
        rw [show stepGo d (fuel + 1) (p :: rest) seen leaves =
          stepParents d (stepGo d fuel) (p :: rest) seen leaves from rfl] at h
        simp only [stepParents] at h
        cases hfn : findNode d p with
        | none => rw [hfn] at h; exact Except.noConfusion h
        | some pps =>
          rw [hfn] at h
          simp only [] at h
          by_cases hp : p ∈ seen
          · rw [if_pos hp] at h
            exact Except.noConfusion h
          · rw [if_neg hp] at h
            cases hin : stepGo d fuel pps (seen ++ [p]) (leaves.erase p) with
            | error e' => rw [hin] at h; exact Except.noConfusion h
            | ok mid =>
              rw [hin] at h
              simp only [] at h
              rcases List.mem_cons.mp hx with hxp | hxr
              · subst hxp
                cases k with
                | zero =>
                  have hxy : x = y := by simpa [reachN] using hr
                  subst hxy
                  exact hp hy
                | succ j =>
                  simp only [reachN, List.any_eq_true] at hr
                  obtain ⟨q, hq, hrq⟩ := hr
                  have hq' : q ∈ pps := by simpa [parentsOf, hfn] using hq
                  exact ihk j (by omega) fuel pps (seen ++ [x]) (leaves.erase x) mid
                    hin q y hq' hrq (List.mem_append_left _ hy)
              · exact ihp seen mid leaves' h x y hxr hr hy

theorem stepGo_ok_subset (d : DagSpec) :
    ∀ (fuel : Nat) (ps seen leaves leaves' : List String),
    stepGo d fuel ps seen leaves = .ok leaves' → ∀ x ∈ leaves', x ∈ leaves := by
  intro fuel
  induction fuel with
  | zero =>
    intro ps seen leaves leaves' h
    simp [stepGo] at h
  | succ fuel ihf =>
    intro ps
    induction ps with
    | nil =>
      intro seen leaves leaves' h
      have h' : Except.ok (ε := AnalyzeError) leaves = .ok leaves' := h
      injection h' with h2
      subst h2
      exact fun x hx => hx
    | cons p rest ihp =>
      intro seen leaves leaves' h
      rw [show stepGo d (fuel + 1) (p :: rest) seen leaves =
        stepParents d (stepGo d fuel) (p :: rest) seen leaves from rfl] at h
      simp only [stepParents] at h
      cases hfn : findNode d p with
      | none => rw [hfn] at h; exact Except.noConfusion h
      | some pps =>
        rw [hfn] at h
        simp only [] at h
        by_cases hp : p ∈ seen
        · rw [if_pos hp] at h
          exact Except.noConfusion h
        · rw [if_neg hp] at h
          cases hin : stepGo d fuel pps (seen ++ [p]) (leaves.erase p) with
          | error e' => rw [hin] at h; exact Except.noConfusion h
          | ok mid =>
            rw [hin] at h
            simp only [] at h
            intro x hx
            have h1 := ihp seen mid leaves' h x hx
            have h2 := ihf pps (seen ++ [p]) (leaves.erase p) mid hin x h1
            exact List.mem_of_mem_erase h2

theorem analyzeGo_error (d : DagSpec) (hnodup : (names d).Nodup)
    (hknown : parentsKnown d) :
    ∀ (rest : List (String × List String)) (roots leaves : List String)
      (e : AnalyzeError),
    analyzeGo d rest roots leaves = .error e →
    (∀ kv ∈ rest, kv ∈ d) →
    ∃ seen' p', e = .cycle seen' p' ∧ p' ∈ seen' ∧ chainLinked d seen'
      ∧ seen'.Nodup ∧ (∀ x ∈ seen', x ∈ names d) ∧ seen' ≠ []
      ∧ p' ∈ parentsOf d (lastName seen') := by
  intro rest
  induction rest with
  | nil =>
    intro roots leaves e h _
    simp [analyzeGo] at h
  | cons kv rest' ih =>
    intro roots leaves e h hmem
    obtain ⟨nm, ps⟩ := kv
    simp only [analyzeGo] at h
    cases hst : stepGo d (d.length + 1) ps [nm] leaves with
    | error e' =>
      rw [hst] at h
      simp only [] at h
      injection h with h2
      subst h2
      have hd : (nm, ps) ∈ d := hmem (nm, ps) (List.mem_cons_self _ _)
      apply stepGo_error_cycle d hknown (d.length + 1) ps [nm] leaves e' hst
      · simp
      · intro x hx
        rw [List.mem_singleton.mp hx]
        exact List.mem_map.mpr ⟨(nm, ps), hd, rfl⟩
      · have : (names d).length = d.length := List.length_map d _
        simp only [List.length_singleton]
        omega
      · trivial
      · simp
      · intro x hx
        have hfn : findNode d nm = some ps := findNode_of_mem_nodup hnodup hd
        simpa [lastName, parentsOf, hfn] using hx
    | ok leaves1 =>
      rw [hst] at h
      simp only [] at h
      exact ih _ _ e h (fun kv hkv => hmem kv (List.mem_cons_of_mem _ hkv))

theorem analyzeGo_ok_roots (d : DagSpec) :
    ∀ (rest : List (String × List String)) (roots leaves : List String)
      (result : List String × List String),
    analyzeGo d rest roots leaves = .ok result →
    result.1 = roots ++ (rest.filter fun kv => kv.2.isEmpty).map (·.1) := by
  intro rest
  induction rest with
  | nil =>
    intro roots leaves result h
    simp only [analyzeGo] at h
    injection h with h2
    rw [← h2]
    simp
  | cons kv rest' ih =>
    intro roots leaves result h
    obtain ⟨nm, ps⟩ := kv
    simp only [analyzeGo] at h
    cases hst : stepGo d (d.length + 1) ps [nm] leaves with
    | error e' => rw [hst] at h; exact Except.noConfusion h
    | ok leaves1 =>
      rw [hst] at h
      simp only [] at h
      have hres := ih _ _ _ h
      cases hps : ps.isEmpty with
      | true => simp [hps, List.filter_cons, hres, List.append_assoc]
      | false => simp [hps, List.filter_cons, hres]

theorem analyzeGo_ok_subset (d : DagSpec) :
    ∀ (rest : List (String × List String)) (roots leaves : List String)
      (result : List String × List String),
    analyzeGo d rest roots leaves = .ok result →
    ∀ x ∈ result.2, x ∈ leaves := by
  intro rest
  induction rest with
  | nil =>
    intro roots leaves result h
    simp only [analyzeGo] at h
    injection h with h2
    rw [← h2]
    exact fun x hx => hx
  | cons kv rest' ih =>
    intro roots leaves result h
    obtain ⟨nm, ps⟩ := kv
    simp only [analyzeGo] at h
    cases hst : stepGo d (d.length + 1) ps [nm] leaves with
    | error e' => rw [hst] at h; exact Except.noConfusion h
    | ok leaves1 =>
      rw [hst] at h
      simp only [] at h
      intro x hx
      exact stepGo_ok_subset d (d.length + 1) ps [nm] leaves leaves1 hst x
        (ih _ _ _ h x hx)

theorem analyzeGo_ok_steps (d : DagSpec) :
    ∀ (rest : List (String × List String)) (roots leaves : List String)
      (result : List String × List String),
    analyzeGo d rest roots leaves = .ok result →
    ∀ nm ps, (nm, ps) ∈ rest →
    ∃ lv lv', stepGo d (d.length + 1) ps [nm] lv = .ok lv' := by
  intro rest
  induction rest with
  | nil =>
    intro roots leaves result _ nm ps hmem
    exact absurd hmem (List.not_mem_nil _)
  | cons kv rest' ih =>
    intro roots leaves result h nm ps hmem
    obtain ⟨nm0, ps0⟩ := kv
    simp only [analyzeGo] at h
    cases hst : stepGo d (d.length + 1) ps0 [nm0] leaves with
    | error e' => rw [hst] at h; exact Except.noConfusion h
    | ok leaves1 =>
      rw [hst] at h
      simp only [] at h
      rcases List.mem_cons.mp hmem with heq | hmem'
      · obtain ⟨h1, h2⟩ := Prod.mk.injEq .. ▸ heq
        subst h1
        subst h2
        exact ⟨leaves, leaves1, hst⟩
      · exact ih _ _ _ h nm ps hmem'

theorem analyzeDag_ok_no_cycle (d : DagSpec)
    (result : List String × List String) (h : analyzeDag d = .ok result) :
    hasCycleB d = false := by
  by_contra hc
  rw [Bool.not_eq_false] at hc
  simp only [hasCycleB, List.any_eq_true] at hc
  obtain ⟨a, ha, k, _, hreach⟩ := hc
  simp only [reachN, List.any_eq_true] at hreach
  obtain ⟨q, hq, hrq⟩ := hreach
  cases hfn : findNode d a with
  | none =>
    rw [parentsOf, hfn] at hq
    simp at hq
  | some ps =>
    have hmem : (a, ps) ∈ d := findNode_mem hfn
    obtain ⟨lv, lv', hstep⟩ := analyzeGo_ok_steps d d [] (names d) result h a ps hmem
    have hq' : q ∈ ps := by simpa [parentsOf, hfn] using hq
    exact stepGo_ok_no_reach d k (d.length + 1) ps [a] lv lv' hstep q a hq' hrq
      (List.mem_singleton.mpr rfl)

end Dag

/-! ### Theorems for claim C2 -/

/-- C2 counterexample: the mapping with a single node a whose parent z is
unknown contains no cycle, yet `analyzeDag` does not return root and leaf
sets: it throws an unknown-parent error. This refutes the claim that for
every node mapping without cycles `analyzeDag` returns rootNodes and
leafNodes. -/
theorem analyzeDag_claim_counterexample :
    Dag.hasCycleB [("a", ["z"])] = false
    ∧ Dag.analyzeDag [("a", ["z"])] = .error (.unknownParent "a" "z")
    ∧ ∀ result, Dag.analyzeDag [("a", ["z"])] ≠ .ok result := by
  refine ⟨rfl, rfl, ?_⟩
  intro result h
  rw [show Dag.analyzeDag [("a", ["z"])] =
    .error (.unknownParent "a" "z") from rfl] at h
  exact Except.noConfusion h

/-- C2 amended: for every node mapping whose names are distinct (JS object
keys) and all of whose parent names are known nodes: if the mapping contains
a cycle (some node reaches itself along parent edges), `analyzeDag` throws a
cycle error listing the walked path, whose final parent closes the cycle on
the path; otherwise it returns rootNodes and leafNodes with both contained
in the node names, and rootNodes exactly the nodes whose parents list is
empty, in key order. A mapping with an unknown parent instead throws. -/
theorem analyzeDag_correct (d : Dag.DagSpec) (hnodup : (Dag.names d).Nodup)
    (hknown : Dag.parentsKnown d) :
    (Dag.hasCycleB d = true →
      ∃ seen p, Dag.analyzeDag d = .error (.cycle seen p) ∧ p ∈ seen)
    ∧ (Dag.hasCycleB d = false →
      ∃ roots leaves, Dag.analyzeDag d = .ok (roots, leaves)
        ∧ roots = (d.filter fun kv => kv.2.isEmpty).map (·.1)
        ∧ (∀ x ∈ roots, x ∈ Dag.names d) ∧ (∀ x ∈ leaves, x ∈ Dag.names d)) := by
  constructor
  · intro hcyc
    cases hres : Dag.analyzeDag d with
    | ok result =>
      exact absurd (Dag.analyzeDag_ok_no_cycle d result hres) (by simp [hcyc])
    | error e =>
      obtain ⟨seen', p', he, hp, _, _, _, _, _⟩ :=
        Dag.analyzeGo_error d hnodup hknown d [] (Dag.names d) e hres
          (fun kv hkv => hkv)
      subst he
      exact ⟨seen', p', rfl, hp⟩
  · intro hnocyc
    cases hres : Dag.analyzeDag d with
    | error e =>
      obtain ⟨seen', p', _, hp, hch, hnd, hsub, _, hpar⟩ :=
        Dag.analyzeGo_error d hnodup hknown d [] (Dag.names d) e hres
          (fun kv hkv => hkv)
      exact absurd (Dag.cycle_facts_hasCycle hp hch hnd hsub hpar)
        (by simp [hnocyc])
    | ok result =>
      obtain ⟨roots, leaves⟩ := result
      have hroots := Dag.analyzeGo_ok_roots d d [] (Dag.names d) (roots, leaves) hres
      simp only [List.nil_append] at hroots
      refine ⟨roots, leaves, rfl, hroots, ?_, ?_⟩
      · intro x hx
        rw [hroots] at hx
        obtain ⟨kv, hkv, hfst⟩ := List.mem_map.mp hx
        exact List.mem_map.mpr ⟨kv, List.mem_of_mem_filter hkv, hfst⟩
      · exact Dag.analyzeGo_ok_subset d d [] (Dag.names d) (roots, leaves) hres

/-! ### Theorems for claim C1 -/

/-- C1 counterexample: the Scenario A run emits five dag:node_start events,
not four: the four configured nodes each emit one, and so does the synthetic
output node that `buildRunners` creates over the leaves, since its runner
executes the same `run` path as every other node. -/
theorem scenarioA_node_start_count :
    DagRun.countEvents DagRun.scenarioARun.events .nodeStart = 5
    ∧ DagRun.countEvents DagRun.scenarioARun.events .nodeStart ≠ 4 := by
  constructor
  · rfl
  · rw [show DagRun.countEvents DagRun.scenarioARun.events .nodeStart = 5 from rfl]
    decide

/-- C1 amended: the Scenario A diamond run resolves with output 24 and emits
exactly one dag:start, five dag:node_start (root, intone, inttwo, collector
and the synthetic output runner, in that order) and one dag:finish; the
compiled leaf set feeding the output runner is exactly the collector node. -/
theorem scenarioA_run_trace :
    DagRun.scenarioARun.output = some (.i 24)
    ∧ DagRun.countEvents DagRun.scenarioARun.events .dagStart = 1
    ∧ DagRun.countEvents DagRun.scenarioARun.events .nodeStart = 5
    ∧ DagRun.countEvents DagRun.scenarioARun.events .dagFinish = 1
    ∧ DagRun.scenarioARun.events =
      [ ⟨.dagStart, ""⟩
      , ⟨.nodeStart, "root"⟩, ⟨.nodeFinish, "root"⟩
      , ⟨.nodeStart, "intone"⟩, ⟨.nodeFinish, "intone"⟩
      , ⟨.nodeStart, "inttwo"⟩, ⟨.nodeFinish, "inttwo"⟩
      , ⟨.nodeStart, "collector"⟩, ⟨.nodeFinish, "collector"⟩
      , ⟨.nodeStart, "__output"⟩, ⟨.nodeFinish, "__output"⟩
      , ⟨.dagFinish, "__output"⟩ ]
    ∧ Dag.analyzeDag Dag.scenarioADag = .ok (["root"], ["collector"]) :=
  ⟨rfl, rfl, rfl, rfl, rfl, rfl⟩

/-- Witness for the C2 amended theorem on the Scenario A diamond. -/
theorem analyzeDag_correct_witness :
    (Dag.names Dag.scenarioADag).Nodup ∧ Dag.parentsKnown Dag.scenarioADag
    ∧ ((Dag.hasCycleB Dag.scenarioADag = true →
        ∃ seen p, Dag.analyzeDag Dag.scenarioADag = .error (.cycle seen p) ∧ p ∈ seen)
      ∧ (Dag.hasCycleB Dag.scenarioADag = false →
        ∃ roots leaves, Dag.analyzeDag Dag.scenarioADag = .ok (roots, leaves)
          ∧ roots = (Dag.scenarioADag.filter fun kv => kv.2.isEmpty).map (·.1)
          ∧ (∀ x ∈ roots, x ∈ Dag.names Dag.scenarioADag)
          ∧ (∀ x ∈ leaves, x ∈ Dag.names Dag.scenarioADag))) :=
  ⟨by decide, by decide, analyzeDag_correct Dag.scenarioADag (by decide) (by decide)⟩

end Ramus
